import Mathlib

/-!
Shallow embedding of the `spacer` path tracer's core (src/math/interval.rs,
src/math/vec3.rs, src/math/aabb.rs, src/image.rs, src/color.rs,
src/primitives.rs, src/material.rs, src/main.rs).

`f32` scalars are modelled by `EFloat`: exact rationals extended with the
special values `+inf`, `-inf` and a single `nan`.  The operations mirror
Rust's `f32` semantics on special values exactly (NaN propagation and the
NaN-ignoring `f32::max`/`f32::min`, signed infinities, division by zero
producing infinities and `0/0 = NaN`, comparisons false on NaN,
`total_cmp` ordering with NaN greatest, the saturating `as u8` cast).
Finite arithmetic is exact rational arithmetic: rounding and signed zeros
are the only f32 behaviours not represented, and every concrete input used
in a counterexample below is chosen so that the f32 computation is exact.
-/

/-- Largest `k ≤ fuel` with `k * k ≤ n` (kernel-reducible integer square
root by descending search; only ever evaluated on small witnesses). -/
def natSqrtBelow (n : ℕ) : ℕ → ℕ
  | 0 => 0
  | k + 1 => if (k + 1) * (k + 1) ≤ n then k + 1 else natSqrtBelow n k

/-- Integer square root (floor), kernel-reducible. -/
def natSqrtLin (n : ℕ) : ℕ := natSqrtBelow n n

/-- Rational square root: exact on squares of rationals, a floor-style
approximation elsewhere (as any computable model of `f32::sqrt` must be). -/
def ratSqrt (q : ℚ) : ℚ := (natSqrtLin q.num.toNat : ℚ) / (natSqrtLin q.den : ℚ)

inductive EFloat where
  | nan : EFloat
  | ninf : EFloat
  | fin : ℚ → EFloat
  | inf : EFloat
deriving DecidableEq, Repr

namespace EFloat

/-- Rust `f32` addition on the extended values; finite addition is exact. -/
def add : EFloat → EFloat → EFloat
  | nan, _ => nan
  | _, nan => nan
  | inf, ninf => nan
  | ninf, inf => nan
  | inf, _ => inf
  | _, inf => inf
  | ninf, _ => ninf
  | _, ninf => ninf
  | fin a, fin b => fin (a + b)

/-- Rust `f32` negation. -/
def neg : EFloat → EFloat
  | nan => nan
  | inf => ninf
  | ninf => inf
  | fin a => fin (-a)

/-- Rust `f32` subtraction (`x - y` agrees with `x + (-y)` exactly in IEEE). -/
def sub (x y : EFloat) : EFloat := add x (neg y)

/-- Rust `f32` multiplication; `inf * 0 = NaN`. -/
def mul : EFloat → EFloat → EFloat
  | nan, _ => nan
  | _, nan => nan
  | inf, inf => inf
  | inf, ninf => ninf
  | ninf, inf => ninf
  | ninf, ninf => inf
  | inf, fin q => if q = 0 then nan else if 0 < q then inf else ninf
  | fin q, inf => if q = 0 then nan else if 0 < q then inf else ninf
  | ninf, fin q => if q = 0 then nan else if 0 < q then ninf else inf
  | fin q, ninf => if q = 0 then nan else if 0 < q then ninf else inf
  | fin a, fin b => fin (a * b)

/-- Rust `f32` division.  The model has a single (positive) zero, so
`x / 0` follows the `+0.0` semantics: `0/0 = NaN`, `pos/0 = +inf`,
`neg/0 = -inf`. -/
def div : EFloat → EFloat → EFloat
  | nan, _ => nan
  | _, nan => nan
  | inf, inf => nan
  | inf, ninf => nan
  | ninf, inf => nan
  | ninf, ninf => nan
  | inf, fin q => if 0 ≤ q then inf else ninf
  | ninf, fin q => if 0 ≤ q then ninf else inf
  | fin _, inf => fin 0
  | fin _, ninf => fin 0
  | fin a, fin b =>
    if b = 0 then (if a = 0 then nan else if 0 < a then inf else ninf)
    else fin (a / b)

/-- Rust `<` on `f32`: false whenever either side is NaN. -/
def lt : EFloat → EFloat → Bool
  | nan, _ => false
  | _, nan => false
  | ninf, ninf => false
  | ninf, _ => true
  | _, ninf => false
  | inf, _ => false
  | fin _, inf => true
  | fin a, fin b => decide (a < b)

/-- Rust `<=` on `f32`: false whenever either side is NaN. -/
def le : EFloat → EFloat → Bool
  | nan, _ => false
  | _, nan => false
  | ninf, _ => true
  | _, ninf => false
  | _, inf => true
  | inf, _ => false
  | fin a, fin b => decide (a ≤ b)

/-- Rust `f32::max`: ignores a NaN argument and returns the other one. -/
def fmax : EFloat → EFloat → EFloat
  | nan, y => y
  | x, nan => x
  | inf, _ => inf
  | _, inf => inf
  | ninf, y => y
  | x, ninf => x
  | fin a, fin b => fin (max a b)

/-- Rust `f32::min`: ignores a NaN argument and returns the other one. -/
def fmin : EFloat → EFloat → EFloat
  | nan, y => y
  | x, nan => x
  | ninf, _ => ninf
  | _, ninf => ninf
  | inf, y => y
  | x, inf => x
  | fin a, fin b => fin (min a b)

/-- Rust `f32::total_cmp`.  The model's single `nan` stands for the positive
quiet NaN (`f32::NAN`), which `total_cmp` orders above `+inf`. -/
def totalCmp : EFloat → EFloat → Ordering
  | nan, nan => .eq
  | nan, _ => .gt
  | _, nan => .lt
  | ninf, ninf => .eq
  | ninf, _ => .lt
  | _, ninf => .gt
  | inf, inf => .eq
  | inf, _ => .gt
  | _, inf => .lt
  | fin a, fin b => if a < b then .lt else if b < a then .gt else .eq

/-- The total order underlying `total_cmp` in the model:
`-inf < finite < +inf < NaN`. -/
def tleB : EFloat → EFloat → Bool
  | _, nan => true
  | nan, _ => false
  | ninf, _ => true
  | _, ninf => false
  | _, inf => true
  | inf, _ => false
  | fin a, fin b => decide (a ≤ b)

/-- Rust `f32::sqrt`, idealized: exact on rational squares (every square
root taken by a theorem or concrete evaluation below is exact). -/
def sqrt : EFloat → EFloat
  | nan => nan
  | ninf => nan
  | inf => inf
  | fin q => if q < 0 then nan else fin (ratSqrt q)

/-- Rust `f32::recip` (`1.0 / self`). -/
def recip (x : EFloat) : EFloat := div (fin 1) x

/-- Rust `f32::abs`. -/
def abs : EFloat → EFloat
  | nan => nan
  | ninf => inf
  | inf => inf
  | fin q => fin |q|

/-- Rust `f32::clamp` (propagates NaN, as in `std`). -/
def clamp (x lo hi : EFloat) : EFloat :=
  if x.lt lo then lo else if hi.lt x then hi else x

/-- Rust `f32::powi` with exponent 5 (exact in the rational model). -/
def pow5 (x : EFloat) : EFloat := mul (mul (mul (mul x x) x) x) x

instance : Add EFloat := ⟨add⟩
instance : Sub EFloat := ⟨sub⟩
instance : Mul EFloat := ⟨mul⟩
instance : Div EFloat := ⟨div⟩
instance : Neg EFloat := ⟨neg⟩

end EFloat

namespace Spacer

/-- `Interval` from src/math/interval.rs: a `[min, max]` scalar range. -/
structure Interval where
  min : EFloat
  max : EFloat
deriving DecidableEq, Repr

namespace Interval

/-- `Interval::EMPTY`: `min = +inf, max = -inf`. -/
def EMPTY : Interval := ⟨.inf, .ninf⟩

/-- `Interval::FULL`. -/
def FULL : Interval := ⟨.ninf, .inf⟩

/-- `Interval::ordered`. -/
def ordered (a b : EFloat) : Interval := if a.lt b then ⟨a, b⟩ else ⟨b, a⟩

/-- `Interval::length` (`self.max - self.min`). -/
def length (i : Interval) : EFloat := i.max - i.min

/-- `Interval::is_empty` (`self.min >= self.max`; `a >= b` on f32 is `le b a`). -/
def is_empty (i : Interval) : Bool := EFloat.le i.max i.min

/-- `Interval::contains` (`self.min <= x && x <= self.max`). -/
def contains (i : Interval) (x : EFloat) : Bool := EFloat.le i.min x && EFloat.le x i.max

/-- `Interval::surrounds` (`self.min < x && x < self.max`). -/
def surrounds (i : Interval) (x : EFloat) : Bool := EFloat.lt i.min x && EFloat.lt x i.max

/-- `Interval::intersect`. -/
def intersect (i other : Interval) : Interval :=
  ⟨EFloat.fmax i.min other.min, EFloat.fmin i.max other.max⟩

/-- `Interval::enclose`. -/
def enclose (i other : Interval) : Interval :=
  ⟨EFloat.fmin i.min other.min, EFloat.fmax i.max other.max⟩

/-- `Interval::cmp_min` (`self.min.total_cmp(&other.min)`). -/
def cmp_min (i other : Interval) : Ordering := EFloat.totalCmp i.min other.min

/-- Both endpoints are non-NaN (every genuine scalar range satisfies this). -/
def noNaN (i : Interval) : Prop := i.min ≠ .nan ∧ i.max ≠ .nan

/-- Interval `a` contains interval `b` (`a.min <= b.min` and
`b.max <= a.max`, in the f32 comparison). -/
def containsI (a b : Interval) : Prop :=
  EFloat.le a.min b.min = true ∧ EFloat.le b.max a.max = true

instance (i : Interval) : Decidable i.noNaN := by
  unfold noNaN
  infer_instance

end Interval

/-- `Vec3` from src/math/vec3.rs. -/
structure Vec3 where
  x : EFloat
  y : EFloat
  z : EFloat
deriving DecidableEq, Repr

namespace Vec3

/-- `Vec3::splat`. -/
def splat (v : EFloat) : Vec3 := ⟨v, v, v⟩

/-- `Vec3::ZERO`. -/
def ZERO : Vec3 := splat (.fin 0)

/-- `Vec3::ONE`. -/
def ONE : Vec3 := splat (.fin 1)

/-- Componentwise `Add for Vec3`. -/
def add (a b : Vec3) : Vec3 := ⟨a.x + b.x, a.y + b.y, a.z + b.z⟩

/-- Componentwise `Sub for Vec3`. -/
def sub (a b : Vec3) : Vec3 := ⟨a.x - b.x, a.y - b.y, a.z - b.z⟩

/-- `Neg for Vec3`. -/
def neg (a : Vec3) : Vec3 := ⟨-a.x, -a.y, -a.z⟩

/-- Componentwise `Mul for Vec3`. -/
def mulv (a b : Vec3) : Vec3 := ⟨a.x * b.x, a.y * b.y, a.z * b.z⟩

/-- `Mul<f32> for Vec3` (scale every component). -/
def smul (a : Vec3) (s : EFloat) : Vec3 := ⟨a.x * s, a.y * s, a.z * s⟩

/-- `Div<f32> for Vec3`: the source multiplies by `rhs.recip()`. -/
def sdiv (a : Vec3) (s : EFloat) : Vec3 := a.smul s.recip

/-- `Vec3::dot`. -/
def dot (a b : Vec3) : EFloat := a.x * b.x + a.y * b.y + a.z * b.z

/-- `Vec3::length_squared`. -/
def length_squared (a : Vec3) : EFloat := a.dot a

/-- `Vec3::length`. -/
def length (a : Vec3) : EFloat := a.length_squared.sqrt

/-- `Vec3::normalized` (`self.div(length)`; the `debug_assert` on a finite
positive length is compiled out in release builds). -/
def normalized (a : Vec3) : Vec3 := a.sdiv a.length

/-- `Vec3::fast_renormalized` (`self.mul(0.5 * (3.0 - length_squared))`). -/
def fast_renormalized (a : Vec3) : Vec3 :=
  a.smul (EFloat.fin (1 / 2) * (EFloat.fin 3 - a.length_squared))

/-- `Vec3::relative_eq` (componentwise absolute difference below `1e-6`). -/
def relative_eq (a b : Vec3) : Bool :=
  EFloat.lt (EFloat.abs (a.x - b.x)) (.fin (1 / 1000000)) &&
  EFloat.lt (EFloat.abs (a.y - b.y)) (.fin (1 / 1000000)) &&
  EFloat.lt (EFloat.abs (a.z - b.z)) (.fin (1 / 1000000))

/-- `Vec3::reflect` (`*self - *normal * 2.0 * normal.dot(self)`). -/
def reflect (a n : Vec3) : Vec3 := a.sub ((n.smul (.fin 2)).smul (n.dot a))

/-- `Vec3::refract`: Snell's law in vector form; returns `ZERO` when the
value under the square root is negative (total internal reflection). -/
def refract (a n : Vec3) (eta : EFloat) : Vec3 :=
  let nDotI := a.dot n
  let k := EFloat.fin 1 - eta * eta * (EFloat.fin 1 - nDotI * nDotI)
  if EFloat.le (.fin 0) k then (a.smul eta).sub (n.smul (eta * nDotI + k.sqrt))
  else ZERO

/-- `Vec3::lerp` (`self * (1.0 - t) + rhs * t`). -/
def lerp (a b : Vec3) (t : EFloat) : Vec3 :=
  (a.smul (EFloat.fin 1 - t)).add (b.smul t)

end Vec3

/-- `Color` from src/color.rs: a newtype over `Vec3`, accessors r/g/b. -/
structure Color where
  v : Vec3
deriving DecidableEq, Repr

namespace Color

/-- `Color::new`. -/
def new (r g b : EFloat) : Color := ⟨⟨r, g, b⟩⟩

/-- `Color::r`. -/
def r (c : Color) : EFloat := c.v.x

/-- `Color::g`. -/
def g (c : Color) : EFloat := c.v.y

/-- `Color::b`. -/
def b (c : Color) : EFloat := c.v.z

/-- `Color::WHITE`. -/
def WHITE : Color := new (.fin 1) (.fin 1) (.fin 1)

/-- `Color::BLACK`. -/
def BLACK : Color := new (.fin 0) (.fin 0) (.fin 0)

/-- `Color::RED`. -/
def RED : Color := new (.fin 1) (.fin 0) (.fin 0)

/-- `Color::GREEN`. -/
def GREEN : Color := new (.fin 0) (.fin 1) (.fin 0)

/-- `Add for Color`. -/
def add (a c : Color) : Color := ⟨a.v.add c.v⟩

/-- `Mul for Color` (componentwise). -/
def mulc (a c : Color) : Color := ⟨a.v.mulv c.v⟩

/-- `Mul<f32> for Color`. -/
def smul (a : Color) (s : EFloat) : Color := ⟨a.v.smul s⟩

/-- `Color::linear_to_gamma`: clamp every channel to `[0,1]`, then take the
square root. -/
def linear_to_gamma (c : Color) : Color :=
  new (EFloat.clamp c.r (.fin 0) (.fin 1)).sqrt
      (EFloat.clamp c.g (.fin 0) (.fin 1)).sqrt
      (EFloat.clamp c.b (.fin 0) (.fin 1)).sqrt

end Color

/-- `Material` from src/material.rs (the three variant structs inlined). -/
inductive Material where
  | lambertian (albedo : Color)
  | metalic (albedo : Color) (fuzz : EFloat)
  | dielectric (ior : EFloat)
deriving DecidableEq, Repr

/-- `Ray` from src/primitives.rs. -/
structure Ray where
  origin : Vec3
  dir : Vec3
deriving DecidableEq, Repr

namespace Ray

/-- `Ray::at` (`self.origin + self.dir * t`); `at` is reserved in Lean,
hence the name. -/
def rayAt (r : Ray) (t : EFloat) : Vec3 := r.origin.add (r.dir.smul t)

end Ray

/-- `HitRecord` from src/primitives.rs. -/
structure HitRecord where
  point : Vec3
  normal : Vec3
  t : EFloat
  is_front_face : Bool
  material : Material
deriving DecidableEq, Repr

/-- `Axis` from src/math/aabb.rs. -/
inductive Axis where
  | X
  | Y
  | Z
deriving DecidableEq, Repr

/-- `Aabb` from src/math/aabb.rs: three orthogonal intervals. -/
structure Aabb where
  x_axis : Interval
  y_axis : Interval
  z_axis : Interval
deriving DecidableEq, Repr

namespace Aabb

/-- `Aabb::EMPTY` (also the `Default`). -/
def EMPTY : Aabb := ⟨Interval.EMPTY, Interval.EMPTY, Interval.EMPTY⟩

/-- `Aabb::from_center`. -/
def from_center (center half_size : Vec3) : Aabb :=
  ⟨⟨center.x - half_size.x, center.x + half_size.x⟩,
   ⟨center.y - half_size.y, center.y + half_size.y⟩,
   ⟨center.z - half_size.z, center.z + half_size.z⟩⟩

/-- `Aabb::enclose` (componentwise `Interval::enclose`). -/
def enclose (a other : Aabb) : Aabb :=
  ⟨a.x_axis.enclose other.x_axis,
   a.y_axis.enclose other.y_axis,
   a.z_axis.enclose other.z_axis⟩

/-- `Aabb::longest_axis` (comparison cascade from the source). -/
def longest_axis (a : Aabb) : Axis :=
  if EFloat.lt a.y_axis.length a.x_axis.length then
    (if EFloat.lt a.z_axis.length a.x_axis.length then .X else .Z)
  else if EFloat.lt a.z_axis.length a.y_axis.length then .Y
  else .Z

/-- One step of the slab loop in `Aabb::hit`: intersect the running
parametric interval with this axis' slab interval, and fail (None) the
moment the intersection is empty. -/
def slabStep (acc : Option Interval) (axis : Interval) (o d : EFloat) : Option Interval :=
  match acc with
  | none => none
  | some cur =>
    let axisInt := Interval.ordered ((axis.min - o) / d) ((axis.max - o) / d)
    let next := cur.intersect axisInt
    if next.is_empty then none else some next

/-- `Aabb::hit`: the three-axis slab test over the query interval. -/
def hit (a : Aabb) (ray : Ray) (ray_t : Interval) : Bool :=
  (slabStep
    (slabStep
      (slabStep (some ray_t) a.x_axis ray.origin.x ray.dir.x)
      a.y_axis ray.origin.y ray.dir.y)
    a.z_axis ray.origin.z ray.dir.z).isSome

/-- Box `a` encloses box `b`, per axis. -/
def containsBox (a b : Aabb) : Prop :=
  a.x_axis.containsI b.x_axis ∧ a.y_axis.containsI b.y_axis ∧ a.z_axis.containsI b.z_axis

/-- Every endpoint of the three intervals is non-NaN. -/
def noNaN (a : Aabb) : Prop := a.x_axis.noNaN ∧ a.y_axis.noNaN ∧ a.z_axis.noNaN

instance (a : Aabb) : Decidable a.noNaN := by
  unfold noNaN
  infer_instance

end Aabb

/-- `Sphere` from src/primitives.rs. -/
structure Sphere where
  center : Vec3
  radius : EFloat
  material : Material
deriving DecidableEq, Repr

namespace Sphere

/-- `Sphere::bounding_box` (`Aabb::from_center(center, Vec3::splat(radius))`). -/
def bounding_box (s : Sphere) : Aabb :=
  Aabb.from_center s.center (Vec3.splat s.radius)

/-- The `oc` binding of `Sphere::hit` (`self.center - ray.origin()`). -/
def oc (s : Sphere) (ray : Ray) : Vec3 := s.center.sub ray.origin

/-- The `a` binding of `Sphere::hit` (`ray.direction().length_squared()`). -/
def quadA (s : Sphere) (ray : Ray) : EFloat :=
  ray.dir.length_squared

/-- The `h` binding of `Sphere::hit` (`ray.direction().dot(&oc)`). -/
def quadH (s : Sphere) (ray : Ray) : EFloat := ray.dir.dot (s.oc ray)

/-- The `c` binding of `Sphere::hit` (`oc.length_squared() - radius²`). -/
def quadC (s : Sphere) (ray : Ray) : EFloat :=
  (s.oc ray).length_squared - s.radius * s.radius

/-- The discriminant `h*h - a*c` of `Sphere::hit`. -/
def discriminant (s : Sphere) (ray : Ray) : EFloat :=
  s.quadH ray * s.quadH ray - s.quadA ray * s.quadC ray

/-- The smaller candidate root `(h - dsqrt) / a` tried first by `Sphere::hit`. -/
def root1 (s : Sphere) (ray : Ray) : EFloat :=
  (s.quadH ray - (s.discriminant ray).sqrt) / s.quadA ray

/-- The larger candidate root `(h + dsqrt) / a` tried second by `Sphere::hit`. -/
def root2 (s : Sphere) (ray : Ray) : EFloat :=
  (s.quadH ray + (s.discriminant ray).sqrt) / s.quadA ray

/-- The `HitRecord` that `Sphere::hit` builds once a root `t` is accepted. -/
def recordAt (s : Sphere) (ray : Ray) (t : EFloat) : HitRecord :=
  let point := ray.rayAt t
  let out_normal := (point.sub s.center).sdiv s.radius
  let out_normal := out_normal.fast_renormalized
  let is_front_face := EFloat.lt (ray.dir.dot out_normal) (.fin 0)
  let normal := if is_front_face then out_normal else out_normal.neg
  ⟨point, normal, t, is_front_face, s.material⟩

/-- `Sphere::hit`: negative discriminant means no hit; otherwise try the
smaller root, then the larger, against `t_range.contains`. -/
def hit (s : Sphere) (ray : Ray) (t_range : Interval) : Option HitRecord :=
  if EFloat.lt (s.discriminant ray) (.fin 0) then none
  else if t_range.contains (s.root1 ray) then some (s.recordAt ray (s.root1 ray))
  else if t_range.contains (s.root2 ray) then some (s.recordAt ray (s.root2 ray))
  else none

end Sphere

/-- A concrete sphere (unit radius, centred at `(0,0,-2)`) used by witnesses. -/
def sphereA : Sphere :=
  ⟨⟨.fin 0, .fin 0, .fin (-2)⟩, .fin 1, .lambertian Color.WHITE⟩

/-- A concrete ray from the origin along `-z`, used by witnesses. -/
def rayA : Ray := ⟨Vec3.ZERO, ⟨.fin 0, .fin 0, .fin (-1)⟩⟩

/-- A concrete query interval `[0, 10]`, used by witnesses. -/
def trA : Interval := ⟨.fin 0, .fin 10⟩

/-- The hit record `Sphere::hit` produces for `sphereA`/`rayA`: the near
root `t = 1`, front face, outward normal `(0,0,1)`. -/
def recA : HitRecord :=
  ⟨⟨.fin 0, .fin 0, .fin (-1)⟩, ⟨.fin 0, .fin 0, .fin 1⟩, .fin 1, true,
    .lambertian Color.WHITE⟩

/-- A `dyn Hittable` trait object as stored in `HittableList`: its `hit`
method and its `bounding_box()`. -/
structure HittableObj where
  hitFn : Ray → Interval → Option HitRecord
  bbox : Aabb

/-- Turn a `Sphere` into the trait object `HittableList` stores. -/
def sphereObj (s : Sphere) : HittableObj := ⟨fun ray tr => s.hit ray tr, s.bounding_box⟩

/-- `HittableList` from src/primitives.rs: the object vector plus the
accumulated bounding box. -/
structure HittableList where
  objects : List HittableObj
  bbox : Aabb

namespace HittableList

/-- `HittableList::default()`: empty vector, `Aabb::EMPTY` box. -/
def empty : HittableList := ⟨[], Aabb.EMPTY⟩

/-- `HittableList::add`: grow the box by the object's bounding box, push
the object. -/
def add (l : HittableList) (o : HittableObj) : HittableList :=
  ⟨l.objects ++ [o], l.bbox.enclose o.bbox⟩

/-- `HittableList::bounding_box`. -/
def bounding_box (l : HittableList) : Aabb := l.bbox

end HittableList

/-- One step of Rust `Iterator::min_by`: replace the running minimum only
on strictly-less, so the first of equally-minimal elements wins. -/
def minStep {α : Type} (cmp : α → α → Ordering) (acc : Option α) (x : α) : Option α :=
  match acc with
  | none => some x
  | some a => if cmp x a = .lt then some x else some a

/-- Rust `Iterator::min_by` as a fold of `minStep`. -/
def listMinBy {α : Type} (cmp : α → α → Ordering) (l : List α) : Option α :=
  l.foldl (minStep cmp) none

/-- The comparator of `HittableList::hit` (`hit1.t.total_cmp(&hit2.t)`). -/
def HitRecord.cmpT (h1 h2 : HitRecord) : Ordering := EFloat.totalCmp h1.t h2.t

/-- `HittableList::hit`: filter-map every child's hit, take the minimum
by `total_cmp` on `t`. -/
def HittableList.hit (l : HittableList) (ray : Ray) (t_range : Interval) :
    Option HitRecord :=
  listMinBy HitRecord.cmpT (l.objects.filterMap (fun o => o.hitFn ray t_range))

/-- The tree a `BvhNode` heads: internal nodes carry the two `Arc` children
and the cached box; leaves are the primitives themselves (spheres here,
matching the scenes the claims quantify over). -/
inductive BvhTree where
  | prim (s : Sphere)
  | node (left right : BvhTree) (bbox : Aabb)
deriving Repr

/-- `<BvhNode as Hittable>::hit` / `Sphere::hit` dispatch: reject the
subtree when the box test fails; query left over the full interval, then
right with the upper bound shrunk to the left hit's `t`; prefer right's
hit. -/
def BvhTree.hit : BvhTree → Ray → Interval → Option HitRecord
  | .prim s, ray, tr => s.hit ray tr
  | .node l r bbox, ray, tr =>
    if bbox.hit ray tr then
      let hit_left := l.hit ray tr
      let right_t_max :=
        match hit_left with
        | some h => h.t
        | none => tr.max
      match r.hit ray (Interval.mk tr.min right_t_max) with
      | some hit_right => some hit_right
      | none => hit_left
    else none

/-- Insertion step of the model's comparator sort. -/
def insertByOrd {α : Type} (cmp : α → α → Ordering) (a : α) : List α → List α
  | [] => [a]
  | b :: l => if cmp a b = .gt then b :: insertByOrd cmp a l else a :: b :: l

/-- A comparator sort standing in for `sort_unstable_by` (which promises
some order consistent with the comparator and no more). -/
def sortByOrd {α : Type} (cmp : α → α → Ordering) : List α → List α
  | [] => []
  | a :: l => insertByOrd cmp a (sortByOrd cmp l)

/-- The per-axis comparator table of `BvhNode::from_hittables`
(`cmp_min` on the chosen axis). -/
def axisCompare : Axis → Aabb → Aabb → Ordering
  | .X, v, u => v.x_axis.cmp_min u.x_axis
  | .Y, v, u => v.y_axis.cmp_min u.y_axis
  | .Z, v, u => v.z_axis.cmp_min u.z_axis

/-- The bbox fold at the top of `BvhNode::from_hittables`. -/
def bvhBboxOf (objects : List Sphere) : Aabb :=
  objects.foldl (fun b o => b.enclose o.bounding_box) Aabb.EMPTY

/-- `BvhNode::from_hittables`, fuel-indexed so the midpoint split needs no
termination argument; `fromHittables` passes enough fuel for any input.
The empty-input case (on which the source recurses forever) returns a
placeholder leaf. -/
def fromHittablesF : ℕ → List Sphere → BvhTree
  | 0, _ => .prim ⟨Vec3.ZERO, .fin 0, .lambertian Color.WHITE⟩
  | fuel + 1, objects =>
    let bbox := bvhBboxOf objects
    match objects with
    | [] => .prim ⟨Vec3.ZERO, .fin 0, .lambertian Color.WHITE⟩
    | [o] => .node (.prim o) (.prim o) bbox
    | [o1, o2] => .node (.prim o1) (.prim o2) bbox
    | o1 :: o2 :: o3 :: rest =>
      let cmp := fun (a b : Sphere) =>
        axisCompare bbox.longest_axis a.bounding_box b.bounding_box
      let sorted := sortByOrd cmp (o1 :: o2 :: o3 :: rest)
      let midpoint := sorted.length / 2
      .node (fromHittablesF fuel (sorted.take midpoint))
            (fromHittablesF fuel (sorted.drop midpoint)) bbox

/-- `BvhNode::from_hittables` over a sphere list. -/
def fromHittables (objects : List Sphere) : BvhTree :=
  fromHittablesF objects.length objects

/-- Schlick's approximation (`reflectance` in src/material.rs). -/
def reflectance (cosine ior : EFloat) : EFloat :=
  let r0 := (EFloat.fin 1 - ior) / (EFloat.fin 1 + ior)
  let r0 := r0 * r0
  r0 + (EFloat.fin 1 - r0) * EFloat.pow5 (EFloat.fin 1 - cosine)

/-- `Material::scatter`.  The two random draws the source takes from the
thread-local generator are explicit arguments: `rv` is the
`Vec3::random_on_sphere()` sample and `rd` the uniform `fastrand::f32()`
draw. -/
def Material.scatter (m : Material) (ray : Ray) (hit : HitRecord) (rv : Vec3)
    (rd : EFloat) : Option (Color × Ray) :=
  match m with
  | .lambertian albedo =>
    let scatter_dir := hit.normal.add rv
    let scatter_dir := if scatter_dir.relative_eq Vec3.ZERO then hit.normal else scatter_dir
    some (albedo, ⟨hit.point, scatter_dir⟩)
  | .metalic albedo fuzz =>
    let reflect_dir := ray.dir.reflect hit.normal
    let fuzzed_dir := reflect_dir.normalized.add (rv.smul fuzz)
    let scattered_ray : Ray := ⟨hit.point, fuzzed_dir⟩
    if EFloat.lt (.fin 0) (scattered_ray.dir.dot hit.normal) then some (albedo, scattered_ray)
    else none
  | .dielectric iorStored =>
    let ior := if hit.is_front_face then iorStored.recip else iorStored
    let ray_dir := ray.dir.normalized
    let refracted_dir := ray_dir.refract hit.normal ior
    let cos_theta := EFloat.fmin (EFloat.neg (ray_dir.dot hit.normal)) (.fin 1)
    let refracted_dir :=
      if refracted_dir = Vec3.ZERO ∨ EFloat.lt rd (reflectance cos_theta ior) = true then
        ray_dir.reflect hit.normal
      else refracted_dir
    some (Color.WHITE, ⟨hit.point, refracted_dir⟩)

/-- `SKY_COLOR` from src/main.rs. -/
def skyColor : Color := Color.new (.fin (1 / 2)) (.fin (7 / 10)) (.fin 1)

/-- `ray_color` from src/main.rs.  The scene (`&impl Hittable`) is its hit
function `worldHit`, and `hit.material.scatter` (which consumes the global
generator) is the oracle `scatterFn`; `bounces` counts down to the black
cutoff. -/
def rayColor (worldHit : Ray → Interval → Option HitRecord)
    (scatterFn : Material → Ray → HitRecord → Option (Color × Ray)) :
    Ray → ℕ → Color
  | _, 0 => Color.BLACK
  | ray, bounces + 1 =>
    match worldHit ray (Interval.mk (.fin (1 / 1000)) .inf) with
    | some hit =>
      match scatterFn hit.material ray hit with
      | some (attenuation, scattered_ray) =>
        (rayColor worldHit scatterFn scattered_ray bounces).mulc attenuation
      | none => Color.BLACK
    | none =>
      let ray_norm_dir := ray.dir.normalized
      let a := EFloat.fin (1 / 2) * (ray_norm_dir.y + EFloat.fin 1)
      (Color.WHITE.smul (EFloat.fin 1 - a)).add (skyColor.smul a)

/-- The loop of `Image::split_n` (src/image.rs): one iteration per
remaining worker; `rows` is `height / n`, `remainder` counts stripes that
get one extra row, `y` the accumulated row offset.  A zero-height stripe
stops the loop.  Stripes are the `(y_offset, height)` pairs of the
produced `SubImage`s. -/
def splitNAux : ℕ → ℕ → ℕ → ℕ → List (ℕ × ℕ)
  | 0, _, _, _ => []
  | k + 1, rows, remainder, y =>
    let stripe_height := rows + (if 0 < remainder then 1 else 0)
    if stripe_height = 0 then []
    else (y, stripe_height) :: splitNAux k rows (remainder - 1) (y + stripe_height)

/-- `Image::split_n(n)` as the list of `(y_offset, height)` stripe pairs. -/
def splitN (height n : ℕ) : List (ℕ × ℕ) := splitNAux n (height / n) (height % n) 0

/-- The pixel-buffer content of `Image` (src/image.rs): bytes as naturals,
row-major, `stride = 3 * width`. -/
structure Image where
  width : ℕ
  height : ℕ
  stride : ℕ
  pixels : List ℕ

/-- The Rust saturating float-to-`u8` cast (`as u8`): NaN and negatives to
0, values at or above 255 to 255, truncation toward zero in between. -/
def toU8 : EFloat → ℕ
  | .nan => 0
  | .ninf => 0
  | .inf => 255
  | .fin q => if q ≤ 0 then 0 else min 255 (q.num / (q.den : ℤ)).toNat

/-- `Image::put_pixel`: gamma-encode, quantize each channel with the
saturating cast, write three bytes at `y * stride + x * 3`. -/
def Image.put_pixel (img : Image) (x y : ℕ) (c : Color) : Image :=
  let gamma := c.linear_to_gamma
  let rb := toU8 (EFloat.mul (.fin 255) gamma.r)
  let gb := toU8 (EFloat.mul (.fin 255) gamma.g)
  let bb := toU8 (EFloat.mul (.fin 255) gamma.b)
  let index := y * img.stride + x * 3
  { img with
    pixels := ((img.pixels.set index rb).set (index + 1) gb).set (index + 2) bb }

/-- The per-channel pipeline of `put_pixel`: clamp to `[0,1]`, square
root, scale by 255, saturating cast. -/
def quantizeChannel (v : EFloat) : ℕ :=
  toU8 (EFloat.mul (.fin 255) (EFloat.clamp v (.fin 0) (.fin 1)).sqrt)

/-- The sphere of the C1 failing input: unit sphere at the origin. -/
def bugSphere : Sphere := ⟨Vec3.ZERO, .fin 1, .lambertian Color.RED⟩

/-- The ray of the C1 failing input: origin `(-2, 1, 0)`, direction
`(1, 0, 0)` — it grazes `bugSphere` tangentially at `(0, 1, 0)`, and its
origin lies exactly on the `y = 1` slab plane of the sphere's box while
the direction's y component is zero. -/
def bugRay : Ray := ⟨⟨.fin (-2), .fin 1, .fin 0⟩, ⟨.fin 1, .fin 0, .fin 0⟩⟩

/-- The query interval `[0, +inf]` of the C1 failing input. -/
def bugRange : Interval := ⟨.fin 0, .inf⟩

/-- The hit `Sphere::hit`/`HittableList::hit` report for the C1 failing
input: the tangent point `t = 2` (a double root, back-face normal since
the ray direction is orthogonal to the outward normal). -/
def bugRec : HitRecord :=
  ⟨⟨.fin 0, .fin 1, .fin 0⟩, ⟨.fin 0, .fin (-1), .fin 0⟩, .fin 2, false,
    .lambertian Color.RED⟩

/-- A hit record whose `t` is NaN, as an arbitrary `dyn Hittable` child
may produce (the trait contract does not rule it out). -/
def nanRec : HitRecord := ⟨Vec3.ZERO, Vec3.ZERO, .nan, false, .lambertian Color.WHITE⟩

/-- A `dyn Hittable` child that always reports `nanRec`. -/
def nanObj : HittableObj := ⟨fun _ _ => some nanRec, Aabb.EMPTY⟩

/-- A concrete box used by the C8 witness. -/
def boxB : Aabb :=
  ⟨⟨.fin (-1), .fin 1⟩, ⟨.fin (-1), .fin 1⟩, ⟨.fin (-1), .fin 1⟩⟩

/-- A `dyn Hittable` child with box `boxB` that never hits, for the C8
witness. -/
def noneObj : HittableObj := ⟨fun _ _ => none, boxB⟩

/-- A 1×1 image with a zeroed 3-byte buffer, for the C10 witness. -/
def imageA : Image := ⟨1, 1, 3, [0, 0, 0]⟩

/-- A color with one negative, one ≥ 1 and one NaN channel, for the C10
witness. -/
def colorWild : Color := Color.new (.fin (-1)) (.fin 2) .nan

end Spacer

namespace EFloat

theorem fmax_comm (a b : EFloat) : fmax a b = fmax b a := by
  cases a <;> cases b <;> simp [fmax, max_comm]

theorem fmax_assoc (a b c : EFloat) : fmax (fmax a b) c = fmax a (fmax b c) := by
  cases a <;> cases b <;> cases c <;> simp [fmax, max_assoc]

theorem fmin_comm (a b : EFloat) : fmin a b = fmin b a := by
  cases a <;> cases b <;> simp [fmin, min_comm]

theorem fmin_assoc (a b c : EFloat) : fmin (fmin a b) c = fmin a (fmin b c) := by
  cases a <;> cases b <;> cases c <;> simp [fmin, min_assoc]

theorem fmax_inf_left (a : EFloat) : fmax inf a = inf := by
  cases a <;> simp [fmax]

theorem fmax_inf_right (a : EFloat) : fmax a inf = inf := by
  cases a <;> simp [fmax]

theorem fmin_ninf_left (a : EFloat) : fmin ninf a = ninf := by
  cases a <;> simp [fmin]

theorem fmin_ninf_right (a : EFloat) : fmin a ninf = ninf := by
  cases a <;> simp [fmin]

theorem fmax_ninf_left (a : EFloat) (h : a ≠ nan) : fmax ninf a = a := by
  cases a <;> simp_all [fmax]

theorem fmin_inf_left (a : EFloat) (h : a ≠ nan) : fmin inf a = a := by
  cases a <;> simp_all [fmin]

theorem le_refl' (a : EFloat) (h : a ≠ nan) : le a a = true := by
  cases a <;> simp_all [le]

theorem le_trans' {a b c : EFloat} (h1 : le a b = true) (h2 : le b c = true) :
    le a c = true := by
  cases a <;> cases b <;> cases c <;> simp_all [le] <;> linarith

theorem fmin_le_left {a : EFloat} (b : EFloat) (h : a ≠ nan) :
    le (fmin a b) a = true := by
  cases a <;> cases b <;> simp_all [fmin, le, min_le_iff]

theorem fmin_le_right (a : EFloat) {b : EFloat} (h : b ≠ nan) :
    le (fmin a b) b = true := by
  cases a <;> cases b <;> simp_all [fmin, le, min_le_iff]

theorem le_fmax_left {a : EFloat} (b : EFloat) (h : a ≠ nan) :
    le a (fmax a b) = true := by
  cases a <;> cases b <;> simp_all [fmax, le, le_max_iff]

theorem le_fmax_right (a : EFloat) {b : EFloat} (h : b ≠ nan) :
    le b (fmax a b) = true := by
  cases a <;> cases b <;> simp_all [fmax, le, le_max_iff]

theorem fmin_ne_nan {a b : EFloat} (h1 : a ≠ nan) (h2 : b ≠ nan) :
    fmin a b ≠ nan := by
  cases a <;> cases b <;> simp_all [fmin]

theorem fmax_ne_nan {a b : EFloat} (h1 : a ≠ nan) (h2 : b ≠ nan) :
    fmax a b ≠ nan := by
  cases a <;> cases b <;> simp_all [fmax]

theorem totalCmp_ne_gt_iff (a b : EFloat) : totalCmp a b ≠ .gt ↔ tleB a b = true := by
  cases a <;> cases b
  case fin.fin q r =>
    simp only [totalCmp, tleB, ne_eq, decide_eq_true_eq]
    rcases lt_trichotomy q r with h | h | h
    · rw [if_pos h]
      simp [h.le]
    · subst h
      rw [if_neg (lt_irrefl q), if_neg (lt_irrefl q)]
      simp
    · rw [if_neg (not_lt.mpr h.le), if_pos h]
      simp [not_le.mpr h]
  all_goals simp [totalCmp, tleB]

theorem totalCmp_ne_lt_iff (a b : EFloat) : totalCmp a b ≠ .lt ↔ tleB b a = true := by
  cases a <;> cases b
  case fin.fin q r =>
    simp only [totalCmp, tleB, ne_eq, decide_eq_true_eq]
    rcases lt_trichotomy q r with h | h | h
    · rw [if_pos h]
      simp [not_le.mpr h]
    · subst h
      rw [if_neg (lt_irrefl q), if_neg (lt_irrefl q)]
      simp
    · rw [if_neg (not_lt.mpr h.le), if_pos h]
      simp [h.le]
  all_goals simp [totalCmp, tleB]

theorem tleB_refl (a : EFloat) : tleB a a = true := by
  cases a <;> simp [tleB]

theorem tleB_trans {a b c : EFloat} (h1 : tleB a b = true) (h2 : tleB b c = true) :
    tleB a c = true := by
  cases a <;> cases b <;> cases c <;> simp_all [tleB] <;> linarith

theorem totalCmp_self_ne_gt (a : EFloat) : totalCmp a a ≠ .gt := by
  rw [totalCmp_ne_gt_iff]
  exact tleB_refl a

theorem totalCmp_trans_ne_gt {a b c : EFloat}
    (h1 : totalCmp a b ≠ .gt) (h2 : totalCmp b c ≠ .gt) : totalCmp a c ≠ .gt := by
  rw [totalCmp_ne_gt_iff] at *
  exact tleB_trans h1 h2

theorem totalCmp_nan_ne_gt {b : EFloat} (h : totalCmp nan b ≠ .gt) : b = nan := by
  rw [totalCmp_ne_gt_iff] at h
  cases b <;> simp_all [tleB]

end EFloat

namespace Spacer

theorem efadd_def (a b : EFloat) : a + b = EFloat.add a b := rfl

theorem efsub_def (a b : EFloat) : a - b = EFloat.sub a b := rfl

theorem efmul_def (a b : EFloat) : a * b = EFloat.mul a b := rfl

theorem efdiv_def (a b : EFloat) : a / b = EFloat.div a b := rfl

theorem efneg_def (a : EFloat) : -a = EFloat.neg a := rfl

/-- C7: `Interval.intersect` and `Interval.enclose` are associative and
commutative; `EMPTY` (min = +inf, max = -inf) is absorbing for `intersect`
and an identity for `enclose`; `is_empty` holds iff `min ≥ max` (which on
f32 is `max ≤ min`).  All parts hold for arbitrary endpoints, infinite ones
included; the `enclose` identity additionally needs the endpoints of the
other interval to be non-NaN (a NaN endpoint does not describe a scalar
range, and `f32::min`/`f32::max` discard it). -/
theorem interval_lattice_properties :
    (∀ i j k : Interval, (i.intersect j).intersect k = i.intersect (j.intersect k)) ∧
    (∀ i j : Interval, i.intersect j = j.intersect i) ∧
    (∀ i j k : Interval, (i.enclose j).enclose k = i.enclose (j.enclose k)) ∧
    (∀ i j : Interval, i.enclose j = j.enclose i) ∧
    (∀ i : Interval,
      Interval.EMPTY.intersect i = Interval.EMPTY ∧
      i.intersect Interval.EMPTY = Interval.EMPTY) ∧
    (∀ i : Interval, i.noNaN →
      Interval.EMPTY.enclose i = i ∧ i.enclose Interval.EMPTY = i) ∧
    (∀ i : Interval, i.is_empty = true ↔ EFloat.le i.max i.min = true) := by
  refine ⟨?_, ?_, ?_, ?_, ?_, ?_, ?_⟩
  · intro i j k
    simp [Interval.intersect, EFloat.fmax_assoc, EFloat.fmin_assoc]
  · intro i j
    simp [Interval.intersect, EFloat.fmax_comm, EFloat.fmin_comm]
  · intro i j k
    simp [Interval.enclose, EFloat.fmin_assoc, EFloat.fmax_assoc]
  · intro i j
    simp [Interval.enclose, EFloat.fmin_comm, EFloat.fmax_comm]
  · intro i
    simp [Interval.intersect, Interval.EMPTY, EFloat.fmax_inf_left,
      EFloat.fmax_inf_right, EFloat.fmin_ninf_left, EFloat.fmin_ninf_right]
  · intro i hi
    obtain ⟨h1, h2⟩ := hi
    constructor
    · simp [Interval.enclose, Interval.EMPTY, EFloat.fmin_inf_left _ h1,
        EFloat.fmax_ninf_left _ h2]
    · simp [Interval.enclose, Interval.EMPTY, EFloat.fmin_comm i.min,
        EFloat.fmax_comm i.max, EFloat.fmin_inf_left _ h1, EFloat.fmax_ninf_left _ h2]
  · intro i
    exact Iff.rfl

/-- Witness for C7: the `enclose` identity applied to the concrete
interval `[0, 1]`. -/
theorem interval_lattice_properties_witness :
    Interval.EMPTY.enclose (Interval.mk (.fin 0) (.fin 1)) = Interval.mk (.fin 0) (.fin 1) ∧
    (Interval.mk (.fin 0) (.fin 1)).enclose Interval.EMPTY = Interval.mk (.fin 0) (.fin 1) :=
  interval_lattice_properties.2.2.2.2.2.1 (Interval.mk (.fin 0) (.fin 1)) (by decide)

/-- C2: `Sphere::hit` returns `None` exactly when the discriminant
`h² - a·c` is negative (in the f32 sense; a NaN discriminant falls through
to the root tests, whose `contains` checks then both fail) or both
quadratic roots `(h ∓ √disc)/a` lie outside the query interval; when it
returns a hit, the reported `t` is the smaller root `(h - √disc)/a` if
that root is contained in the interval, and otherwise the larger root
`(h + √disc)/a`. -/
theorem sphere_hit_root_selection (s : Sphere) (ray : Ray) (tr : Interval) :
    (s.hit ray tr = none ↔
      (EFloat.lt (s.discriminant ray) (.fin 0) = true ∨
        (tr.contains (s.root1 ray) = false ∧ tr.contains (s.root2 ray) = false))) ∧
    (∀ rec : HitRecord, s.hit ray tr = some rec →
      rec.t = if tr.contains (s.root1 ray) = true then s.root1 ray else s.root2 ray) := by
  by_cases hd : EFloat.lt (s.discriminant ray) (.fin 0) = true
  · refine ⟨?_, ?_⟩
    · rw [Sphere.hit, if_pos hd]
      simp [hd]
    · intro rec hrec
      rw [Sphere.hit, if_pos hd] at hrec
      exact absurd hrec (by simp)
  · by_cases h1 : tr.contains (s.root1 ray) = true
    · refine ⟨?_, ?_⟩
      · rw [Sphere.hit, if_neg hd, if_pos h1]
        simp [hd, h1]
      · intro rec hrec
        rw [Sphere.hit, if_neg hd, if_pos h1] at hrec
        rw [if_pos h1, ← Option.some.inj hrec]
        rfl
    · by_cases h2 : tr.contains (s.root2 ray) = true
      · refine ⟨?_, ?_⟩
        · rw [Sphere.hit, if_neg hd, if_neg h1, if_pos h2]
          simp [hd, h1, h2]
        · intro rec hrec
          rw [Sphere.hit, if_neg hd, if_neg h1, if_pos h2] at hrec
          rw [if_neg h1, ← Option.some.inj hrec]
          rfl
      · refine ⟨?_, ?_⟩
        · rw [Sphere.hit, if_neg hd, if_neg h1, if_neg h2]
          simp only [Bool.not_eq_true] at h1 h2
          simp [hd, h1, h2]
        · intro rec hrec
          rw [Sphere.hit, if_neg hd, if_neg h1, if_neg h2] at hrec
          exact absurd hrec (by simp)

/-- Witness for C2 at `sphereA`/`rayA`/`trA`: the hit exists and its `t`
is the smaller root. -/
theorem sphereA_hit_eval : Sphere.hit sphereA rayA trA = some recA := by
  norm_num [Sphere.hit, Sphere.recordAt, Sphere.root1, Sphere.root2,
    Sphere.discriminant, Sphere.quadA, Sphere.quadH, Sphere.quadC, Sphere.oc,
    Ray.rayAt, Vec3.dot, Vec3.length_squared, Vec3.sub, Vec3.add, Vec3.smul,
    Vec3.sdiv, Vec3.splat, Vec3.ZERO, Vec3.fast_renormalized, Vec3.neg,
    Interval.contains, EFloat.lt, EFloat.le, EFloat.add, EFloat.sub,
    EFloat.mul, EFloat.div, EFloat.neg, EFloat.sqrt, EFloat.recip,
    ratSqrt, natSqrtLin, natSqrtBelow, sphereA, rayA, trA, recA,
    Color.WHITE, Color.new, efadd_def, efsub_def, efmul_def, efdiv_def, efneg_def]

theorem sphere_hit_root_selection_witness :
    Sphere.hit sphereA rayA trA = some recA ∧
    recA.t =
      if trA.contains (sphereA.root1 rayA) = true then sphereA.root1 rayA
      else sphereA.root2 rayA :=
  ⟨sphereA_hit_eval,
    (sphere_hit_root_selection sphereA rayA trA).2 recA sphereA_hit_eval⟩


/-- C5: on a `Dielectric` material, `Material::scatter` always scatters —
both the refraction and the reflection branch end in `Some` — and the
attenuation is exactly white `(1,1,1)`, for every incoming ray, hit
record, and random draw. -/
theorem dielectric_scatter_some_white (ior : EFloat) (ray : Ray) (hit : HitRecord)
    (rv : Vec3) (rd : EFloat) :
    ∃ scattered : Ray,
      Material.scatter (.dielectric ior) ray hit rv rd = some (Color.WHITE, scattered) :=
  ⟨_, rfl⟩

/-- C6: with `max_bounces = 0`, `ray_color` returns exactly black, and the
result does not depend on the scene's hit function or the material
scattering oracle (so `scene.hit` is never consulted). -/
theorem ray_color_zero_bounces
    (wh wh' : Ray → Interval → Option HitRecord)
    (sf sf' : Material → Ray → HitRecord → Option (Color × Ray)) (ray : Ray) :
    rayColor wh sf ray 0 = Color.BLACK ∧
    rayColor wh sf ray 0 = rayColor wh' sf' ray 0 :=
  ⟨rfl, rfl⟩

theorem splitNAux_succ (k rows rem y : ℕ) :
    splitNAux (k + 1) rows rem y =
      (if rows + (if 0 < rem then 1 else 0) = 0 then []
       else
         (y, rows + (if 0 < rem then 1 else 0)) ::
           splitNAux k rows (rem - 1) (y + (rows + (if 0 < rem then 1 else 0)))) :=
  rfl

theorem splitNAux_length_pos (k : ℕ) :
    ∀ rows rem y, 0 < rows → (splitNAux k rows rem y).length = k := by
  induction k with
  | zero =>
    intro rows rem y _
    rfl
  | succ k ih =>
    intro rows rem y hrows
    rw [splitNAux_succ, if_neg (by split <;> omega)]
    simp [ih rows (rem - 1) _ hrows]

theorem splitNAux_heights (k : ℕ) :
    ∀ rows rem y, 0 < rows → rem ≤ k →
      (splitNAux k rows rem y).map Prod.snd =
        List.replicate rem (rows + 1) ++ List.replicate (k - rem) rows := by
  induction k with
  | zero =>
    intro rows rem y _ hrem
    interval_cases rem
    rfl
  | succ k ih =>
    intro rows rem y hrows hrem
    rcases Nat.eq_zero_or_pos rem with h | h
    · subst h
      rw [splitNAux_succ]
      simp only [lt_irrefl, if_false, Nat.add_zero]
      rw [if_neg (by omega)]
      simp [ih rows 0 _ hrows (by omega), List.replicate_succ]
    · obtain ⟨r, rfl⟩ : ∃ r, rem = r + 1 := ⟨rem - 1, by omega⟩
      rw [splitNAux_succ]
      simp only [Nat.succ_pos, if_true, Nat.add_sub_cancel]
      rw [if_neg (by omega)]
      simp only [List.map_cons, ih rows r _ hrows (by omega), List.replicate_succ,
        List.cons_append, Nat.succ_sub_succ]

theorem splitNAux_cover (k : ℕ) :
    ∀ rows rem y, 0 < rows → rem ≤ k →
      (splitNAux k rows rem y).flatMap (fun s => List.range' s.1 s.2) =
        List.range' y (k * rows + rem) := by
  induction k with
  | zero =>
    intro rows rem y _ hrem
    interval_cases rem
    simp [splitNAux]
  | succ k ih =>
    intro rows rem y hrows hrem
    rcases Nat.eq_zero_or_pos rem with h | h
    · subst h
      rw [splitNAux_succ]
      simp only [lt_irrefl, if_false, Nat.add_zero]
      rw [if_neg (by omega)]
      simp only [List.flatMap_cons, ih rows 0 _ hrows (by omega)]
      have := List.range'_append y rows (k * rows + 0) 1
      simp only [one_mul, Nat.add_zero] at this ⊢
      rw [this]
      congr 1
      ring
    · obtain ⟨r, rfl⟩ : ∃ r, rem = r + 1 := ⟨rem - 1, by omega⟩
      rw [splitNAux_succ]
      simp only [Nat.succ_pos, if_true, Nat.add_sub_cancel]
      rw [if_neg (by omega)]
      simp only [List.flatMap_cons, ih rows r _ hrows (by omega)]
      have := List.range'_append y (rows + 1) (k * rows + r) 1
      simp only [one_mul] at this
      rw [this]
      congr 1
      ring

theorem splitNAux_zero_rows (k : ℕ) :
    ∀ rem y, rem ≤ k →
      splitNAux k 0 rem y = (List.range' y rem).map (fun i => (i, 1)) := by
  induction k with
  | zero =>
    intro rem y hrem
    interval_cases rem
    rfl
  | succ k ih =>
    intro rem y hrem
    rcases Nat.eq_zero_or_pos rem with h | h
    · subst h
      rfl
    · obtain ⟨r, rfl⟩ : ∃ r, rem = r + 1 := ⟨rem - 1, by omega⟩
      rw [splitNAux_succ]
      simp only [Nat.succ_pos, if_true, Nat.add_sub_cancel]
      rw [if_neg (by omega)]
      rw [ih r _ (by omega)]
      simp [List.range'_succ]

/-- C3: for `1 ≤ N ≤ H`, `Image::split_n` yields exactly `N` stripes; the
height list is `H mod N` stripes of `H/N + 1` rows followed by the rest at
`H/N` rows (so the first `H mod N` stripes get the extra row and sizes
differ by at most one); and concatenating the stripes' row ranges in order
gives exactly `[0, H)` — each row appears in exactly one stripe. -/
theorem split_n_partitions_rows (H N : ℕ) (h1 : 1 ≤ N) (h2 : N ≤ H) :
    (splitN H N).length = N ∧
    ((splitN H N).map Prod.snd =
      List.replicate (H % N) (H / N + 1) ++ List.replicate (N - H % N) (H / N)) ∧
    ((splitN H N).flatMap (fun s => List.range' s.1 s.2) = List.range H) := by
  have hN : 0 < N := h1
  have hrows : 0 < H / N := (Nat.one_le_div_iff hN).mpr h2
  have hrem : H % N ≤ N := le_of_lt (Nat.mod_lt _ hN)
  refine ⟨?_, ?_, ?_⟩
  · exact splitNAux_length_pos N (H / N) (H % N) 0 hrows
  · exact splitNAux_heights N (H / N) (H % N) 0 hrows hrem
  · rw [splitN, splitNAux_cover N (H / N) (H % N) 0 hrows hrem,
      List.range_eq_range', Nat.div_add_mod]

/-- Witness for C3 at `H = 5`, `N = 2`: stripes `[3, 2]` covering `[0,5)`. -/
theorem split_n_partitions_rows_witness :
    (splitN 5 2).length = 2 ∧
    ((splitN 5 2).map Prod.snd =
      List.replicate (5 % 2) (5 / 2 + 1) ++ List.replicate (2 - 5 % 2) (5 / 2)) ∧
    ((splitN 5 2).flatMap (fun s => List.range' s.1 s.2) = List.range 5) :=
  split_n_partitions_rows 5 2 (by decide) (by decide)

/-- C9: for every height `H` (including the `N > H` case the spec's
partition property excludes) and `N ≥ 1`, `split_n` returns exactly
`min N H` stripes, every stripe has positive height, and the stripes still
cover `[0, H)` disjointly; when `N > H` the result is `H` one-row stripes
rather than `N` stripes. -/
theorem split_n_more_workers_than_rows (H N : ℕ) (h1 : 1 ≤ N) :
    (splitN H N).length = min N H ∧
    (∀ s ∈ splitN H N, 0 < s.2) ∧
    ((splitN H N).flatMap (fun s => List.range' s.1 s.2) = List.range H) ∧
    (H < N → (splitN H N).map Prod.snd = List.replicate H 1) := by
  have hN : 0 < N := h1
  rcases le_or_lt N H with hle | hgt
  · obtain ⟨hlen, hmap, hcov⟩ := split_n_partitions_rows H N h1 hle
    refine ⟨?_, ?_, hcov, ?_⟩
    · rw [hlen, min_eq_left hle]
    · intro s hs
      have : s.2 ∈ (splitN H N).map Prod.snd := List.mem_map_of_mem Prod.snd hs
      rw [hmap] at this
      have hrows : 0 < H / N := (Nat.one_le_div_iff hN).mpr hle
      rcases List.mem_append.mp this with h | h
      · rw [List.eq_of_mem_replicate h]
        omega
      · rw [List.eq_of_mem_replicate h]
        exact hrows
    · intro h
      omega
  · have hrows : H / N = 0 := Nat.div_eq_of_lt hgt
    have hrem : H % N = H := Nat.mod_eq_of_lt hgt
    have hform : splitN H N = (List.range' 0 H).map (fun i => (i, 1)) := by
      rw [splitN, hrows, hrem]
      exact splitNAux_zero_rows N H 0 (le_of_lt hgt)
    refine ⟨?_, ?_, ?_, ?_⟩
    · rw [hform]
      simp [min_eq_right (le_of_lt hgt)]
    · intro s hs
      rw [hform] at hs
      obtain ⟨i, _, rfl⟩ := List.mem_map.mp hs
      exact Nat.one_pos
    · rw [hform, List.flatMap_map, List.range_eq_range']
      have : ∀ i : ℕ, List.range' i 1 = [i] := fun i => List.range'_one
      simp [this]
    · intro _
      rw [hform]
      rw [List.eq_replicate_iff]
      constructor
      · simp
      · intro b hb
        simp only [List.map_map, List.mem_map] at hb
        obtain ⟨i, _, rfl⟩ := hb
        rfl

/-- Witness for C9 at `H = 2`, `N = 5`: two one-row stripes, not five. -/
theorem split_n_more_workers_than_rows_witness :
    (splitN 2 5).length = min 5 2 ∧
    (∀ s ∈ splitN 2 5, 0 < s.2) ∧
    ((splitN 2 5).flatMap (fun s => List.range' s.1 s.2) = List.range 2) ∧
    (2 < 5 → (splitN 2 5).map Prod.snd = List.replicate 2 1) :=
  split_n_more_workers_than_rows 2 5 (by decide)


theorem minStep_fold_mem {α : Type} (cmp : α → α → Ordering) :
    ∀ (l : List α) (a b : α),
      l.foldl (minStep cmp) (some a) = some b → b = a ∨ b ∈ l := by
  intro l
  induction l with
  | nil =>
    intro a b h
    simp only [List.foldl_nil, Option.some.injEq] at h
    exact Or.inl h.symm
  | cons x l ih =>
    intro a b h
    simp only [List.foldl_cons] at h
    by_cases hc : cmp x a = .lt
    · simp only [minStep, hc, if_true] at h
      rcases ih x b h with h' | h'
      · exact Or.inr (h' ▸ List.mem_cons_self x l)
      · exact Or.inr (List.mem_cons_of_mem x h')
    · simp only [minStep, hc, if_false] at h
      rcases ih a b h with h' | h'
      · exact Or.inl h'
      · exact Or.inr (List.mem_cons_of_mem x h')

theorem minStep_fold_min {α : Type} (cmp : α → α → Ordering)
    (hrefl : ∀ a, cmp a a ≠ .gt)
    (hnotlt : ∀ a b, cmp a b ≠ .lt → cmp b a ≠ .gt)
    (htrans : ∀ a b c, cmp a b ≠ .gt → cmp b c ≠ .gt → cmp a c ≠ .gt) :
    ∀ (l : List α) (a b : α), l.foldl (minStep cmp) (some a) = some b →
      cmp b a ≠ .gt ∧ ∀ x ∈ l, cmp b x ≠ .gt := by
  intro l
  induction l with
  | nil =>
    intro a b h
    simp only [List.foldl_nil, Option.some.injEq] at h
    subst h
    exact ⟨hrefl a, by simp⟩
  | cons x l ih =>
    intro a b h
    simp only [List.foldl_cons] at h
    by_cases hc : cmp x a = .lt
    · simp only [minStep, hc, if_true] at h
      obtain ⟨h1, h2⟩ := ih x b h
      refine ⟨htrans b x a h1 (by simp [hc]), ?_⟩
      intro y hy
      rcases List.mem_cons.mp hy with rfl | hy
      · exact h1
      · exact h2 y hy
    · simp only [minStep, hc, if_false] at h
      obtain ⟨h1, h2⟩ := ih a b h
      refine ⟨h1, ?_⟩
      intro y hy
      rcases List.mem_cons.mp hy with rfl | hy
      · exact htrans b a y h1 (hnotlt y a hc)
      · exact h2 y hy

theorem listMinBy_spec {α : Type} (cmp : α → α → Ordering)
    (hrefl : ∀ a, cmp a a ≠ .gt)
    (hnotlt : ∀ a b, cmp a b ≠ .lt → cmp b a ≠ .gt)
    (htrans : ∀ a b c, cmp a b ≠ .gt → cmp b c ≠ .gt → cmp a c ≠ .gt)
    (l : List α) (b : α) (h : listMinBy cmp l = some b) :
    b ∈ l ∧ ∀ x ∈ l, cmp b x ≠ .gt := by
  cases l with
  | nil => exact absurd h (by simp [listMinBy])
  | cons x l =>
    have h' : l.foldl (minStep cmp) (some x) = some b := h
    constructor
    · rcases minStep_fold_mem cmp l x b h' with h'' | h''
      · exact h'' ▸ List.mem_cons_self x l
      · exact List.mem_cons_of_mem x h''
    · intro y hy
      obtain ⟨h1, h2⟩ := minStep_fold_min cmp hrefl hnotlt htrans l x b h'
      rcases List.mem_cons.mp hy with rfl | hy
      · exact h1
      · exact h2 y hy

/-- C4 counterexample: a `dyn Hittable` child whose hit carries `t = NaN`
IS returned by `HittableList::hit` when it is the only child hit
(`min_by` returns the sole element), so a NaN `t` is not "never the
returned hit" as the claim states. -/
theorem list_hit_returns_nan_hit :
    (HittableList.empty.add nanObj).hit rayA trA = some nanRec ∧ nanRec.t = .nan :=
  ⟨rfl, rfl⟩

/-- C4 as amended: `HittableList::hit` returns a child hit whose `t` is
minimal under `f32::total_cmp` — no other child hit compares strictly
below it — and since `total_cmp` orders (positive) NaN above every
non-NaN value, a hit with NaN `t` loses to every non-NaN child hit and is
returned only when every child hit has NaN `t`, not never. -/
theorem list_hit_minimal_total_cmp (l : HittableList) (ray : Ray) (tr : Interval)
    (rec : HitRecord) (h : l.hit ray tr = some rec) :
    rec ∈ l.objects.filterMap (fun o => o.hitFn ray tr) ∧
    (∀ r' ∈ l.objects.filterMap (fun o => o.hitFn ray tr),
      HitRecord.cmpT rec r' ≠ .gt) ∧
    (rec.t = .nan →
      ∀ r' ∈ l.objects.filterMap (fun o => o.hitFn ray tr), r'.t = .nan) := by
  have hrefl : ∀ a : HitRecord, HitRecord.cmpT a a ≠ .gt := fun a =>
    EFloat.totalCmp_self_ne_gt a.t
  have hnotlt : ∀ a b : HitRecord, HitRecord.cmpT a b ≠ .lt → HitRecord.cmpT b a ≠ .gt := by
    intro a b hab
    rw [HitRecord.cmpT, EFloat.totalCmp_ne_gt_iff]
    rw [HitRecord.cmpT, EFloat.totalCmp_ne_lt_iff] at hab
    exact hab
  have htrans : ∀ a b c : HitRecord,
      HitRecord.cmpT a b ≠ .gt → HitRecord.cmpT b c ≠ .gt → HitRecord.cmpT a c ≠ .gt :=
    fun a b c h1 h2 => EFloat.totalCmp_trans_ne_gt h1 h2
  obtain ⟨hmem, hmin⟩ := listMinBy_spec HitRecord.cmpT hrefl hnotlt htrans _ rec h
  refine ⟨hmem, hmin, ?_⟩
  intro hnan r' hr'
  have := hmin r' hr'
  rw [HitRecord.cmpT, hnan] at this
  exact EFloat.totalCmp_nan_ne_gt this

/-- Witness for C4's amended claim: the single-sphere list returns the
sphere's hit, which is minimal and (its `t` being `1`, not NaN) makes the
NaN clause vacuous. -/
theorem list_hit_minimal_total_cmp_witness :
    recA ∈ (HittableList.empty.add (sphereObj sphereA)).objects.filterMap
      (fun o => o.hitFn rayA trA) ∧
    (∀ r' ∈ (HittableList.empty.add (sphereObj sphereA)).objects.filterMap
      (fun o => o.hitFn rayA trA), HitRecord.cmpT recA r' ≠ .gt) ∧
    (recA.t = .nan →
      ∀ r' ∈ (HittableList.empty.add (sphereObj sphereA)).objects.filterMap
        (fun o => o.hitFn rayA trA), r'.t = .nan) :=
  list_hit_minimal_total_cmp (HittableList.empty.add (sphereObj sphereA)) rayA trA recA
    (by simp [HittableList.hit, HittableList.add, HittableList.empty, sphereObj,
      listMinBy, minStep, sphereA_hit_eval])


theorem efle_ne_nan {a b : EFloat} (h : EFloat.le a b = true) : a ≠ .nan ∧ b ≠ .nan := by
  cases a <;> cases b <;> simp_all [EFloat.le]

theorem containsI_enclose_self {a b : Interval} (hb : b.noNaN) :
    (a.enclose b).containsI b :=
  ⟨EFloat.fmin_le_right _ hb.1, EFloat.le_fmax_right _ hb.2⟩

theorem containsI_enclose_mono {a c : Interval} (b : Interval) (h : a.containsI c) :
    (a.enclose b).containsI c := by
  obtain ⟨h1, h2⟩ := h
  exact ⟨EFloat.le_trans' (EFloat.fmin_le_left _ (efle_ne_nan h1).1) h1,
         EFloat.le_trans' h2 (EFloat.le_fmax_left _ (efle_ne_nan h2).2)⟩

theorem containsBox_enclose_self {a b : Aabb} (hb : b.noNaN) :
    (a.enclose b).containsBox b :=
  ⟨containsI_enclose_self hb.1, containsI_enclose_self hb.2.1,
   containsI_enclose_self hb.2.2⟩

theorem containsBox_enclose_mono {a c : Aabb} (b : Aabb) (h : a.containsBox c) :
    (a.enclose b).containsBox c :=
  ⟨containsI_enclose_mono _ h.1, containsI_enclose_mono _ h.2.1,
   containsI_enclose_mono _ h.2.2⟩

theorem foldl_add_bbox (objs : List HittableObj) (l : HittableList) :
    (objs.foldl HittableList.add l).bbox =
      objs.foldl (fun b o => b.enclose o.bbox) l.bbox := by
  induction objs generalizing l with
  | nil => rfl
  | cons o objs ih =>
    simp only [List.foldl_cons]
    exact ih (l.add o)

theorem bbox_fold_contains (objs : List HittableObj)
    (hnn : ∀ o ∈ objs, o.bbox.noNaN) (start : Aabb) :
    (∀ b : Aabb, start.containsBox b →
      (objs.foldl (fun acc o => acc.enclose o.bbox) start).containsBox b) ∧
    (∀ o ∈ objs,
      (objs.foldl (fun acc o => acc.enclose o.bbox) start).containsBox o.bbox) := by
  induction objs generalizing start with
  | nil => exact ⟨fun b hb => hb, by simp⟩
  | cons o objs ih =>
    have hnn' : ∀ o' ∈ objs, o'.bbox.noNaN := fun o' h' =>
      hnn o' (List.mem_cons_of_mem o h')
    obtain ⟨mono, heads⟩ := ih hnn' (start.enclose o.bbox)
    refine ⟨?_, ?_⟩
    · intro b hb
      exact mono b (containsBox_enclose_mono _ hb)
    · intro o' ho'
      rcases List.mem_cons.mp ho' with rfl | ho'
      · exact mono o'.bbox (containsBox_enclose_self (hnn o' (List.mem_cons_self o' objs)))
      · exact heads o' ho'

/-- C8: after any sequence of `HittableList::add` calls starting from the
default (empty) list, the list's `bounding_box()` encloses — contains,
per axis — the `bounding_box()` of every object added so far, provided
every added box has non-NaN endpoints (as every sphere with non-NaN
center/radius produces).  Each `add` grows the box with
`Aabb::enclose`, which preserves the aggregate-enclosure invariant. -/
theorem list_add_bbox_contains_each (objs : List HittableObj)
    (hnn : ∀ o ∈ objs, o.bbox.noNaN) :
    ∀ o ∈ objs,
      ((objs.foldl HittableList.add HittableList.empty).bounding_box).containsBox
        o.bbox := by
  intro o ho
  rw [HittableList.bounding_box, foldl_add_bbox]
  exact (bbox_fold_contains objs hnn Aabb.EMPTY).2 o ho

/-- Witness for C8: adding the single object `noneObj` (box `[-1,1]³`)
to the empty list yields a list box containing `boxB`. -/
theorem list_add_bbox_contains_each_witness :
    (([noneObj].foldl HittableList.add HittableList.empty).bounding_box).containsBox
      noneObj.bbox :=
  list_add_bbox_contains_each [noneObj]
    (by
      intro o ho
      rw [List.mem_singleton] at ho
      subst ho
      decide)
    noneObj (List.mem_singleton.mpr rfl)


theorem toU8_le_255 (v : EFloat) : toU8 v ≤ 255 := by
  cases v with
  | nan => exact Nat.zero_le _
  | ninf => exact Nat.zero_le _
  | inf => exact Nat.le_refl _
  | fin q =>
    rw [toU8]
    split
    · exact Nat.zero_le _
    · exact Nat.min_le_left _ _

theorem ratSqrt_zero : ratSqrt 0 = 0 := by
  norm_num [ratSqrt, natSqrtLin, natSqrtBelow]

theorem ratSqrt_one : ratSqrt 1 = 1 := by
  norm_num [ratSqrt, natSqrtLin, natSqrtBelow]

theorem quantizeChannel_neg (v : EFloat) (h : EFloat.lt v (.fin 0) = true) :
    quantizeChannel v = 0 := by
  cases v with
  | nan => simp [EFloat.lt] at h
  | inf => simp [EFloat.lt] at h
  | ninf =>
    norm_num [quantizeChannel, EFloat.clamp, EFloat.lt, EFloat.sqrt, ratSqrt_zero,
      EFloat.mul, toU8]
  | fin q =>
    have hq : q < 0 := by simpa [EFloat.lt] using h
    norm_num [quantizeChannel, EFloat.clamp, EFloat.lt, hq, EFloat.sqrt, ratSqrt_zero,
      EFloat.mul, toU8]

theorem quantizeChannel_ge_one (v : EFloat) (h : EFloat.le (.fin 1) v = true) :
    quantizeChannel v = 255 := by
  have hone : quantizeChannel (.fin 1) = 255 := by
    norm_num [quantizeChannel, EFloat.clamp, EFloat.lt, EFloat.sqrt, ratSqrt_one,
      EFloat.mul, toU8, Rat.num_ofNat, Rat.den_ofNat]
  cases v with
  | nan => simp [EFloat.le] at h
  | ninf => simp [EFloat.le] at h
  | inf =>
    norm_num [quantizeChannel, EFloat.clamp, EFloat.lt, EFloat.sqrt, ratSqrt_one,
      EFloat.mul, toU8, Rat.num_ofNat, Rat.den_ofNat]
  | fin q =>
    have hq : 1 ≤ q := by simpa [EFloat.le] using h
    by_cases hq1 : 1 < q
    · norm_num [quantizeChannel, EFloat.clamp, EFloat.lt, (by linarith : ¬q < 0),
        hq1, EFloat.sqrt, ratSqrt_one, EFloat.mul, toU8, Rat.num_ofNat, Rat.den_ofNat]
    · have : q = 1 := le_antisymm (not_lt.mp hq1) hq
      subst this
      exact hone

theorem quantizeChannel_nan : quantizeChannel .nan = 0 := rfl

/-- C10: for every in-bounds pixel `(x, y)` and every color — channels
negative, above 1, or NaN included — `Image::put_pixel` stays within the
pixel buffer (no panic) and writes three bytes in `0..=255`: each channel
goes through clamp-to-`[0,1]`, square root, and the saturating `as u8`
cast, so a negative channel becomes 0, a channel at or above 1 becomes
255, and a NaN channel becomes 0. -/
theorem put_pixel_in_bounds_quantized (img : Image) (x y : ℕ) (c : Color)
    (hs : img.stride = 3 * img.width)
    (hl : img.pixels.length = img.stride * img.height)
    (hx : x < img.width) (hy : y < img.height) :
    y * img.stride + x * 3 + 2 < img.pixels.length ∧
    (img.put_pixel x y c).pixels.length = img.pixels.length ∧
    (img.put_pixel x y c).pixels[y * img.stride + x * 3]? =
      some (quantizeChannel c.r) ∧
    (img.put_pixel x y c).pixels[y * img.stride + x * 3 + 1]? =
      some (quantizeChannel c.g) ∧
    (img.put_pixel x y c).pixels[y * img.stride + x * 3 + 2]? =
      some (quantizeChannel c.b) ∧
    (∀ v : EFloat, quantizeChannel v ≤ 255) ∧
    (∀ v : EFloat, EFloat.lt v (.fin 0) = true → quantizeChannel v = 0) ∧
    (∀ v : EFloat, EFloat.le (.fin 1) v = true → quantizeChannel v = 255) ∧
    quantizeChannel .nan = 0 := by
  have hbound : y * img.stride + x * 3 + 2 < img.pixels.length := by
    rw [hl, hs]
    calc y * (3 * img.width) + x * 3 + 2
        < y * (3 * img.width) + 3 * img.width := by omega
      _ = (y + 1) * (3 * img.width) := by ring
      _ ≤ img.height * (3 * img.width) := Nat.mul_le_mul_right _ hy
      _ = 3 * img.width * img.height := by ring
  have hi : y * img.stride + x * 3 < img.pixels.length := by omega
  have hi1 : y * img.stride + x * 3 + 1 < img.pixels.length := by omega
  refine ⟨hbound, ?_, ?_, ?_, ?_, fun v => toU8_le_255 _, quantizeChannel_neg,
    quantizeChannel_ge_one, quantizeChannel_nan⟩
  · simp [Image.put_pixel, List.length_set]
  · simp only [Image.put_pixel]
    rw [List.getElem?_set_ne (by omega), List.getElem?_set_ne (by omega),
      List.getElem?_set_self hi]
    rfl
  · simp only [Image.put_pixel]
    rw [List.getElem?_set_ne (by omega),
      List.getElem?_set_self (by simpa [List.length_set] using hi1)]
    rfl
  · simp only [Image.put_pixel]
    rw [List.getElem?_set_self (by simpa [List.length_set] using hbound)]
    rfl

/-- Witness for C10: a 1×1 image and the color `(-1, 2, NaN)` — the three
written bytes are 0, 255, 0. -/
theorem put_pixel_in_bounds_quantized_witness :
    0 * imageA.stride + 0 * 3 + 2 < imageA.pixels.length ∧
    (imageA.put_pixel 0 0 colorWild).pixels.length = imageA.pixels.length ∧
    (imageA.put_pixel 0 0 colorWild).pixels[0 * imageA.stride + 0 * 3]? =
      some (quantizeChannel colorWild.r) ∧
    (imageA.put_pixel 0 0 colorWild).pixels[0 * imageA.stride + 0 * 3 + 1]? =
      some (quantizeChannel colorWild.g) ∧
    (imageA.put_pixel 0 0 colorWild).pixels[0 * imageA.stride + 0 * 3 + 2]? =
      some (quantizeChannel colorWild.b) ∧
    (∀ v : EFloat, quantizeChannel v ≤ 255) ∧
    (∀ v : EFloat, EFloat.lt v (.fin 0) = true → quantizeChannel v = 0) ∧
    (∀ v : EFloat, EFloat.le (.fin 1) v = true → quantizeChannel v = 255) ∧
    quantizeChannel .nan = 0 :=
  put_pixel_in_bounds_quantized imageA 0 0 colorWild rfl rfl
    (by decide) (by decide)


/-- C1 (evaluation of the failing input): for the single-sphere scene
`[bugSphere]` and the grazing ray `bugRay` over `[0, +inf]`, the
brute-force linear scan (`HittableList::hit`, equivalently `Sphere::hit`)
reports the tangent hit at `t = 2`, but the BVH built from the same set by
`BvhNode::from_hittables` returns no hit: the ray origin lies exactly on
the box's `y = 1` slab plane with a zero y direction, so the slab test
computes `(1-1)/0 = 0/0 = NaN` and `(-1-1)/0 = -inf`,
`Interval::ordered(-inf, NaN)` (whose `<` is false on NaN) yields the
interval `(NaN, -inf)`, and the NaN-discarding intersection collapses to
the empty `(1, -inf)`, rejecting the whole tree.  This refutes the claimed
BVH/linear-scan equivalence on the code as written; the spec's invariant
("identical for every ray") is the evident intent, so the slab test's
division semantics are a code bug. -/
theorem bvh_grazing_ray_divergence :
    BvhTree.hit (fromHittables [bugSphere]) bugRay bugRange = none ∧
    (HittableList.empty.add (sphereObj bugSphere)).hit bugRay bugRange = some bugRec ∧
    Sphere.hit bugSphere bugRay bugRange = some bugRec := by
  have hs : Sphere.hit bugSphere bugRay bugRange = some bugRec := by
    norm_num [Sphere.hit, Sphere.recordAt, Sphere.root1, Sphere.root2,
      Sphere.discriminant, Sphere.quadA, Sphere.quadH, Sphere.quadC, Sphere.oc,
      Ray.rayAt, Vec3.dot, Vec3.length_squared, Vec3.sub, Vec3.add, Vec3.smul,
      Vec3.sdiv, Vec3.splat, Vec3.ZERO, Vec3.fast_renormalized, Vec3.neg,
      Interval.contains, EFloat.lt, EFloat.le, EFloat.add, EFloat.sub,
      EFloat.mul, EFloat.div, EFloat.neg, EFloat.sqrt, EFloat.recip,
      ratSqrt, natSqrtLin, natSqrtBelow, bugSphere, bugRay, bugRange, bugRec,
      Color.RED, Color.new, efadd_def, efsub_def, efmul_def, efdiv_def, efneg_def]
  refine ⟨?_, ?_, hs⟩
  · norm_num [fromHittables, fromHittablesF, bvhBboxOf, Sphere.bounding_box,
      Aabb.from_center, Aabb.EMPTY, Interval.EMPTY, Aabb.enclose, Interval.enclose,
      EFloat.fmax, EFloat.fmin, BvhTree.hit, Aabb.hit, Aabb.slabStep,
      Interval.ordered, Interval.intersect, Interval.is_empty,
      EFloat.lt, EFloat.le, EFloat.div, EFloat.sub, EFloat.add, EFloat.neg,
      Vec3.splat, Vec3.ZERO, bugSphere, bugRay, bugRange,
      efadd_def, efsub_def, efmul_def, efdiv_def, efneg_def]
  · simp [HittableList.hit, HittableList.add, HittableList.empty, sphereObj,
      listMinBy, minStep, hs]

end Spacer
